import Mathlib

/-!
Verification of the analysis-session bridge of solana-playground's Rust
Analyzer client (`rust-analyzer.ts`): the correlation-based call channel
(`createWorker`, `callWorker`, `worker.onmessage`, the proxy handler), the
dependency/crate loader (`loadDependency`, `cachedNames`), and the update
pipeline (`update`).

The TypeScript module is embedded shallowly: the mutable module state
(`pendingResolve`, `id`, `cachedNames`) becomes explicit state records, and
the observable side effects (messages posted to the worker, resolver
invocations, fetches, engine calls) are recorded in explicit logs.
-/

namespace RAClient

/-! ## Call channel (`createWorker`)

Source state: `const pendingResolve = {}` (correlation id → resolver) and
`let id = 1` (next correlation id).  Resolvers are JS closures; here each
is identified by an abstract token (a `Nat`), and invoking a resolver with
a result is recorded by appending the pair to a `resolved` log.  Results
carried on the wire are opaque; they are embedded as `Nat`. -/

/-- A message posted to the worker by `callWorker`:
`worker.postMessage({ method, args, id })`. -/
structure PostedMsg where
  method : String
  args : List Nat
  id : Nat
deriving DecidableEq, Repr

/-- Correlation id of an inbound worker message: either the readiness
sentinel string `"ra-worker-ready"` or a numeric call id. -/
inductive MsgId where
  | ready
  | num (n : Nat)
deriving DecidableEq, Repr

/-- An inbound message `ev.data` as read by `worker.onmessage`. -/
structure WorkerMsg where
  id : MsgId
  result : Nat
deriving DecidableEq, Repr

/-- The call channel's state: the pending-resolver table `pendingResolve`
(keyed by correlation id; values are resolver tokens), the next id counter
`id` (source: `let id = 1`), the log of messages posted to the worker, and
the log of resolver invocations `(resolver token, result)` in the order
they happened. -/
structure ChanState where
  pendingResolve : List (Nat × Nat)
  id : Nat
  posted : List PostedMsg
  resolved : List (Nat × Nat)
deriving DecidableEq, Repr

/-- Channel state right after `createWorker` sets up its locals. -/
def ChanState.init : ChanState :=
  { pendingResolve := [], id := 1, posted := [], resolved := [] }

/-- `callWorker(method, ...args)` with resolver token `res`:
`pendingResolve[id] = res; worker.postMessage({ method, args, id }); id += 1`. -/
def callWorker (s : ChanState) (method : String) (args : List Nat)
    (res : Nat) : ChanState :=
  { pendingResolve := s.pendingResolve ++ [(s.id, res)]
    id := s.id + 1
    posted := s.posted ++ [⟨method, args, s.id⟩]
    resolved := s.resolved }

/-- `worker.onmessage`: the readiness sentinel resolves the outer
`createWorker` promise and leaves the call tables alone; a numeric id is
looked up in `pendingResolve`, and when present its resolver is invoked
with `ev.data.result` and the entry is deleted; otherwise the message is
dropped. -/
def onmessage (s : ChanState) (ev : WorkerMsg) : ChanState :=
  match ev.id with
  | MsgId.ready => s
  | MsgId.num n =>
    match s.pendingResolve.find? (fun p => p.1 = n) with
    | some p =>
      { pendingResolve := s.pendingResolve.filter (fun q => q.1 ≠ n)
        id := s.id
        posted := s.posted
        resolved := s.resolved ++ [(p.2, ev.result)] }
    | none => s

/-- One foreground event in a channel session: a `callWorker` invocation
or an inbound worker message. -/
inductive ChanEvent where
  | call (method : String) (args : List Nat) (res : Nat)
  | msg (ev : WorkerMsg)
deriving DecidableEq, Repr

/-- Step the channel by one event. -/
def chanStep (s : ChanState) : ChanEvent → ChanState
  | ChanEvent.call m a r => callWorker s m a r
  | ChanEvent.msg ev => onmessage s ev

/-- Run a whole session (list of events) from the initial channel state. -/
def runChan (evs : List ChanEvent) : ChanState :=
  evs.foldl chanStep ChanState.init

/-! ## Session proxy (`proxyHandler`)

`get: (target, prop, receiver) => { if (prop === "then") return
Reflect.get(target, prop, receiver); return async (...args) =>
callWorker(prop, ...args); }` -/

/-- What a property access on the session proxy evaluates to:
`passthrough` is the `Reflect.get` on the underlying empty target (taken
for `prop === "then"`), `forward` is the async function that issues
`callWorker(prop, ...args)`. -/
inductive ProxyResult where
  | passthrough
  | forward (method : String)
deriving DecidableEq, Repr

/-- The proxy's `get` trap. -/
def proxyGet (prop : String) : ProxyResult :=
  if prop = "then" then ProxyResult.passthrough else ProxyResult.forward prop

/-- Invoking `proxy.prop(...args)` against channel state `s`: when the
`get` trap forwarded, the returned function immediately issues
`callWorker(prop, ...args)`; when it passed through (`"then"`), no
function is forwarded and no call-channel request is made. -/
def proxyCall (s : ChanState) (prop : String) (args : List Nat)
    (res : Nat) : Option ChanState :=
  match proxyGet prop with
  | ProxyResult.passthrough => none
  | ProxyResult.forward m => some (callWorker s m args res)

/-- Issue `k` calls in a row from a fresh channel; call number `i`
(0-based) uses resolver token `i`. -/
def issueBatch (k : Nat) : ChanState :=
  (List.range k).foldl (fun st i => callWorker st "m" [] i) ChanState.init

/-- Deliver a list of inbound worker messages in order. -/
def processReplies (s : ChanState) (evs : List WorkerMsg) : ChanState :=
  evs.foldl onmessage s

/-- The resolver token stored in a pending table for id `n` (0 when
absent; only used under hypotheses that guarantee presence). -/
def lookupRes (p : List (Nat × Nat)) (n : Nat) : Nat :=
  ((p.find? (fun q => q.1 = n)).map Prod.snd).getD 0

/-- Session invariant of the call channel: posted correlation ids are
exactly `1, 2, …` in order, the counter stays at least 1, pending ids are
pairwise distinct, and every pending id is at least 1 and below the
counter. -/
def ChanInv (s : ChanState) : Prop :=
  s.posted.map PostedMsg.id = List.range' 1 (s.id - 1) ∧
  1 ≤ s.id ∧
  (s.pendingResolve.map Prod.fst).Nodup ∧
  ∀ p ∈ s.pendingResolve, 1 ≤ p.1 ∧ p.1 < s.id

/-! ## Dependency loader and update pipeline

Source state: `const cachedNames: Map<string, "full" | "empty">`.  The
engine (`state`), the crate store fetches (`PgCommon.fetchText`) and the
permitted set `CRATES` are collaborators; their observable calls are
recorded in an event log, and their responses are supplied by an
environment. -/

/-- Cached crate status: `"full" | "empty"` (absence from the map is the
third, initial state). -/
inductive CrateStatus where
  | full
  | empty
deriving DecidableEq, Repr

/-- `cachedNames`, as an association list keyed by crate name. -/
abbrev Cache := List (String × CrateStatus)

/-- `cachedNames.get(name)`. -/
def Cache.get (c : Cache) (k : String) : Option CrateStatus :=
  (c.find? (fun q => q.1 = k)).map Prod.snd

/-- `cachedNames.set(name, v)` (replace any existing binding). -/
def Cache.set (c : Cache) (k : String) (v : CrateStatus) : Cache :=
  (k, v) :: c.filter (fun q => q.1 ≠ k)

/-- Observable side effects of the loader: a `PgCommon.fetchText(path)`,
a full ingestion `state.loadDependency(name, code, manifest)`, an
empty-crate registration `state.loadDependency(name)`, and a diagnostics
request `state.update(path, text)`. -/
inductive LoadEvent where
  | fetch (path : String)
  | engineLoadFull (name code manifest : String)
  | engineLoadEmpty (name : String)
  | engineUpdate (path text : String)
deriving DecidableEq, Repr

/-- Whether an event is the diagnostics request `state.update(...)`. -/
def LoadEvent.isDiag : LoadEvent → Bool
  | LoadEvent.engineUpdate _ _ => true
  | _ => false

/-- The loader's state: the `cachedNames` cache plus the log of side
effects performed so far. -/
structure LoaderState where
  cache : Cache
  log : List LoadEvent
deriving DecidableEq, Repr

/-- Environment of the loader.

`crates` — Modelled from the spec: the constant `CRATES` (the workspace's
permitted dependency set, a fixed list of crate names) is referenced by
the source module but defined elsewhere in the repository; per the spec
it is a fixed order-significant set of names, kept abstract here.

`fetchCode name` / `fetchManifest name` — the text served by the
read-only crate store for `/crates/name.rs` and `/crates/name.toml`.

`needed name` — the `neededCrates` list the engine returns from
`state.loadDependency(name, code, manifest)` (the dependency graph). -/
structure Env where
  crates : List String
  fetchCode : String → String
  fetchManifest : String → String
  needed : String → List String

/-- Substring test on character lists. -/
def hasSub (pat : List Char) : List Char → Bool
  | [] => pat.isEmpty
  | c :: rest => pat.isPrefixOf (c :: rest) || hasSub pat rest

/-- `new RegExp(crate + "::", "gm").test(text)`: for a literal crate-name
pattern this is exactly "`text` contains the substring `crate::`". -/
def usesCrate (crate text : String) : Bool :=
  hasSub (crate ++ "::").data text.data

/-- The loop body of `loadDependency`'s recursion over `neededCrates`:
`for (const crate of neededCrates) if (CRATES.includes(crate)) await
loadDependency(crate)`, with the recursive call supplied as `f`. -/
def loadList (env : Env) (f : LoaderState → String → Option LoaderState) :
    List String → LoaderState → Option LoaderState
  | [], st => some st
  | c :: rest, st =>
    if env.crates.contains c then
      match f st c with
      | none => none
      | some st' => loadList env f rest st'
    else loadList env f rest st

/-- `loadDependency(name)` with explicit recursion fuel (`none` = fuel
exhausted; enough fuel always exists, see the termination theorems):
return if cached `full`; else fetch `/crates/name.rs` and
`/crates/name.toml`, ingest them (`state.loadDependency(name, code,
manifest)`, returning `neededCrates`), mark the name `full`, then recurse
over the needed crates that are in the permitted set. -/
def loadDependencyF (env : Env) : Nat → LoaderState → String → Option LoaderState
  | 0, _, _ => none
  | fuel + 1, st, name =>
    if st.cache.get name = some CrateStatus.full then some st
    else
      loadList env (loadDependencyF env fuel) (env.needed name)
        { cache := st.cache.set name CrateStatus.full
          log := st.log ++
            [LoadEvent.fetch ("/crates/" ++ name ++ ".rs"),
             LoadEvent.fetch ("/crates/" ++ name ++ ".toml"),
             LoadEvent.engineLoadFull name (env.fetchCode name)
               (env.fetchManifest name)] }

/-- Number of permitted crates not cached as `full` — the measure that
shrinks at every full ingestion. -/
def notFullCount (env : Env) (c : Cache) : Nat :=
  (env.crates.filter (fun n => decide (c.get n ≠ some CrateStatus.full))).length

/-- `loadDependency(name)`: the fuelled recursion run with provably
sufficient fuel. -/
def loadDependency (env : Env) (st : LoaderState) (name : String) :
    LoaderState :=
  (loadDependencyF env (notFullCount env st.cache + 2) st name).getD st

/-- The spec's `markSeen(name)` (inlined in `update`'s loop): no-op when
cached `full` or `empty`; otherwise register the name as a known-but-empty
crate (`state.loadDependency(crate)`) and cache `empty`. -/
def markSeen (st : LoaderState) (c : String) : LoaderState :=
  match st.cache.get c with
  | some CrateStatus.full => st
  | some CrateStatus.empty => st
  | none =>
    { cache := st.cache.set c CrateStatus.empty
      log := st.log ++ [LoadEvent.engineLoadEmpty c] }

/-- One iteration of `update`'s crate loop: skip when cached `full`; load
fully when the text uses `crate::`; otherwise `markSeen`. -/
def crateStep (env : Env) (text : String) (st : LoaderState) (c : String) :
    LoaderState :=
  match st.cache.get c with
  | some CrateStatus.full => st
  | _ => if usesCrate c text then loadDependency env st c else markSeen st c

/-- `update`'s crate loop over a list of crates, sequentially. -/
def updateLoop (env : Env) (text : String) :
    List String → LoaderState → LoaderState
  | [], st => st
  | c :: rest, st => updateLoop env text rest (crateStep env text st c)

/-- `update(model)`: walk the permitted crates in their fixed order
(awaiting each step), then request diagnostics
(`state.update(model.uri.path, model.getValue())`). -/
def update (env : Env) (st : LoaderState) (path text : String) :
    LoaderState :=
  let st1 := updateLoop env text env.crates st
  { cache := st1.cache
    log := st1.log ++ [LoadEvent.engineUpdate path text] }

/-- A core loader operation, for stating session-wide invariants. -/
inductive Op where
  | update (path text : String)
  | load (name : String)
  | markSeen (name : String)

/-- Run one core operation. -/
def opStep (env : Env) (st : LoaderState) : Op → LoaderState
  | Op.update p t => update env st p t
  | Op.load n => loadDependency env st n
  | Op.markSeen n => markSeen st n

/-- Run a sequence of core operations. -/
def runOps (env : Env) (st : LoaderState) (ops : List Op) : LoaderState :=
  ops.foldl (opStep env) st

/-- Position of a cached status along `NotLoaded → Empty → Full`. -/
def statusRank : Option CrateStatus → Nat
  | none => 0
  | some CrateStatus.empty => 1
  | some CrateStatus.full => 2

/-- Whether an event is the full ingestion of crate `name`. -/
def isFullLoadFor (name : String) : LoadEvent → Bool
  | LoadEvent.engineLoadFull n _ _ => n = name
  | _ => false

/-- How many full ingestions of `name` a log records. -/
def fullLoadCount (log : List LoadEvent) (name : String) : Nat :=
  (log.filter (isFullLoadFor name)).length

/-- Accounting invariant: a crate's full ingestion has happened exactly
once when it is cached `full` and never otherwise. -/
def GoodSt (st : LoaderState) : Prop :=
  ∀ name, fullLoadCount st.log name =
    if st.cache.get name = some CrateStatus.full then 1 else 0

/-- A two-crate cyclic dependency graph (`"a"` requires `"b"` and `"b"`
requires `"a"`), for concrete witnesses. -/
def cycleEnv : Env :=
  { crates := ["a", "b"]
    fetchCode := fun n => "code_" ++ n
    fetchManifest := fun n => "manifest_" ++ n
    needed := fun n => if n = "a" then ["b"] else if n = "b" then ["a"] else [] }

end RAClient

namespace RAClient

/-! ## Claim theorems: channel basics -/

/-- When the pending table has no entry for id `n`, delivering a reply
with id `n` leaves the state untouched. -/
theorem onmessage_of_not_mem (s : ChanState) (n v : Nat)
    (h : n ∉ s.pendingResolve.map Prod.fst) :
    onmessage s ⟨MsgId.num n, v⟩ = s := by
  have hfind : s.pendingResolve.find? (fun p => p.1 = n) = none := by
    rw [List.find?_eq_none]
    intro p hp
    simp only [decide_eq_true_eq]
    intro hpn
    exact h (List.mem_map.mpr ⟨p, hp, hpn⟩)
  simp [onmessage, hfind]

/-- Filtering id `n` out of the pending table removes it from the key
set. -/
theorem not_mem_filter_ne (l : List (Nat × Nat)) (n : Nat) :
    n ∉ (l.filter (fun q => q.1 ≠ n)).map Prod.fst := by
  intro h
  obtain ⟨p, hp, hpn⟩ := List.mem_map.mp h
  have := List.of_mem_filter hp
  simp [hpn] at this

/-- C10. A non-sentinel message whose correlation id has no entry in
`pendingResolve` is silently dropped: the state is unchanged, so no
resolver is invoked; and a duplicate reply for an id is inert after the
first reply deleted the entry, so it cannot resolve any call a second
time. -/
theorem onmessage_unknown_id_dropped (s : ChanState) (n : Nat) (v v' : Nat) :
    (n ∉ s.pendingResolve.map Prod.fst → onmessage s ⟨MsgId.num n, v⟩ = s) ∧
    onmessage (onmessage s ⟨MsgId.num n, v⟩) ⟨MsgId.num n, v'⟩ =
      onmessage s ⟨MsgId.num n, v⟩ := by
  refine ⟨onmessage_of_not_mem s n v, ?_⟩
  match hfind : s.pendingResolve.find? (fun p => p.1 = n) with
  | some p =>
    have hstep : onmessage s ⟨MsgId.num n, v⟩ =
        { pendingResolve := s.pendingResolve.filter (fun q => q.1 ≠ n)
          id := s.id
          posted := s.posted
          resolved := s.resolved ++ [(p.2, v)] } := by
      simp only [onmessage, hfind]
    rw [hstep]
    exact onmessage_of_not_mem _ n v' (not_mem_filter_ne _ n)
  | none =>
    have hstep : ∀ w : Nat, onmessage s ⟨MsgId.num n, w⟩ = s := by
      intro w
      simp only [onmessage, hfind]
    rw [hstep, hstep]

/-- C10 witness: a concrete unknown id (5) against a state with one
pending entry for id 1 is dropped. -/
theorem onmessage_unknown_id_dropped_w :
    onmessage ⟨[(1, 0)], 2, [], []⟩ ⟨MsgId.num 5, 7⟩ = ⟨[(1, 0)], 2, [], []⟩ :=
  (onmessage_unknown_id_dropped ⟨[(1, 0)], 2, [], []⟩ 5 7 7).1 (by decide)

/-- C9 counterexample. The claim quantifies over every property name, but
the property `"then"` is special-cased by the proxy: accessing it returns
the underlying target's value (`Reflect.get`), and no call-channel request
carrying the name `"then"` is ever issued. -/
theorem proxy_then_not_forwarded :
    proxyCall ChanState.init "then" [] 0 = none ∧
      proxyGet "then" = ProxyResult.passthrough := by
  constructor <;> rfl

/-- C9 (amended). For every property name other than the reserved
promise-interop name `"then"` and every argument list, invoking the
property as a method issues exactly one call-channel request carrying that
same name and argument list, registers exactly one pending resolver, and
changes nothing else (no resolver invocation, counter advanced by one). -/
theorem proxy_forwards_verbatim (s : ChanState) (prop : String)
    (args : List Nat) (res : Nat) (h : prop ≠ "then") :
    proxyCall s prop args res =
      some { pendingResolve := s.pendingResolve ++ [(s.id, res)]
             id := s.id + 1
             posted := s.posted ++ [⟨prop, args, s.id⟩]
             resolved := s.resolved } := by
  simp [proxyCall, proxyGet, h, callWorker]

/-- C9 witness: the method name `"completions"` with arguments `[3, 5]`
is forwarded as exactly one posted request. -/
theorem proxy_forwards_verbatim_w :
    proxyCall ChanState.init "completions" [3, 5] 0 =
      some { pendingResolve := [(1, 0)]
             id := 2
             posted := [⟨"completions", [3, 5], 1⟩]
             resolved := [] } :=
  proxy_forwards_verbatim ChanState.init "completions" [3, 5] 0 (by decide)

/-! ## Channel id invariant (C8) -/

/-- Keys of a pending table survive filtering as a filter on the key
list. -/
theorem keys_filter_ne (p : List (Nat × Nat)) (n : Nat) :
    (p.filter (fun q => q.1 ≠ n)).map Prod.fst =
      (p.map Prod.fst).filter (fun x => x ≠ n) := by
  induction p with
  | nil => rfl
  | cons q rest ih =>
    have ih' : (rest.filter (fun q => !decide (q.1 = n))).map Prod.fst =
        (rest.map Prod.fst).filter (fun x => !decide (x = n)) := by
      simpa only [ne_eq, decide_not] using ih
    by_cases h : q.1 = n <;> simp [List.filter_cons, h, ih']

/-- The channel invariant holds initially. -/
theorem chanInv_init : ChanInv ChanState.init := by
  refine ⟨rfl, le_refl 1, List.nodup_nil, ?_⟩
  intro p hp
  cases hp

/-- Every channel event preserves the channel invariant. -/
theorem chanInv_step (s : ChanState) (e : ChanEvent) (h : ChanInv s) :
    ChanInv (chanStep s e) := by
  obtain ⟨hposted, hid, hnd, hbound⟩ := h
  cases e with
  | call m a r =>
    refine ⟨?_, by simp [chanStep, callWorker], ?_, ?_⟩
    · simp only [chanStep, callWorker, List.map_append, hposted, List.map_cons,
        List.map_nil]
      have h1 : s.id + 1 - 1 = (s.id - 1) + 1 := by omega
      rw [h1, List.range'_1_concat]
      have h2 : 1 + (s.id - 1) = s.id := by omega
      rw [h2]
    · simp only [chanStep, callWorker, List.map_append, List.map_cons,
        List.map_nil]
      rw [List.nodup_append]
      refine ⟨hnd, List.nodup_singleton _, ?_⟩
      intro x hx hx'
      obtain ⟨q, hq, hqx⟩ := List.mem_map.mp hx
      have := (hbound q hq).2
      simp only [List.mem_singleton] at hx'
      omega
    · intro p hp
      simp only [chanStep, callWorker] at hp
      rcases List.mem_append.mp hp with hp | hp
      · have := hbound p hp
        simp only [chanStep, callWorker]
        exact ⟨this.1, by omega⟩
      · simp only [List.mem_singleton] at hp
        subst hp
        simp only [chanStep, callWorker]
        exact ⟨hid, by omega⟩
  | msg ev =>
    match hevid : ev.id with
    | MsgId.ready =>
      simpa [chanStep, onmessage, hevid] using ⟨hposted, hid, hnd, hbound⟩
    | MsgId.num n =>
      match hfind : s.pendingResolve.find? (fun p => p.1 = n) with
      | some q =>
        refine ⟨?_, ?_, ?_, ?_⟩ <;>
          simp only [chanStep, onmessage, hevid, hfind]
        · exact hposted
        · exact hid
        · rw [keys_filter_ne]
          exact List.Nodup.filter _ hnd
        · intro p hp
          exact hbound p (List.mem_of_mem_filter hp)
      | none =>
        simpa [chanStep, onmessage, hevid, hfind] using ⟨hposted, hid, hnd, hbound⟩

/-- The channel invariant holds after any prefix of a session. -/
theorem chanInv_run (evs : List ChanEvent) (s : ChanState) (h : ChanInv s) :
    ChanInv (evs.foldl chanStep s) := by
  induction evs generalizing s with
  | nil => exact h
  | cons e rest ih => exact ih _ (chanInv_step s e h)

/-- C8. At every point in a session (any event list `evs`): the
outstanding correlation ids are pairwise distinct; the ids assigned to
successive calls are exactly `1, 2, 3, …` in issuance order, hence
strictly increasing and never reused; and every assigned id is at least 1
and distinct from the readiness sentinel. -/
theorem chan_ids_unique_monotone (evs : List ChanEvent) :
    ((runChan evs).pendingResolve.map Prod.fst).Nodup ∧
    (runChan evs).posted.map PostedMsg.id =
      List.range' 1 ((runChan evs).id - 1) ∧
    ((runChan evs).posted.map PostedMsg.id).Pairwise (· < ·) ∧
    ∀ m ∈ (runChan evs).posted, 1 ≤ m.id ∧ MsgId.num m.id ≠ MsgId.ready := by
  simp only [runChan]
  obtain ⟨hposted, hid, hnd, hbound⟩ :=
    chanInv_run evs ChanState.init chanInv_init
  refine ⟨hnd, hposted, ?_, ?_⟩
  · rw [hposted]
    exact List.pairwise_lt_range' 1 _
  · intro m hm
    have hmem := List.mem_map_of_mem PostedMsg.id hm
    rw [hposted] at hmem
    have := List.mem_range'_1.mp hmem
    exact ⟨this.1, by simp⟩

/-! ## Exactly-once delivery (C1) -/

/-- When id `n` is a key of the pending table, `find?` returns the entry
`(n, lookupRes p n)`. -/
theorem find?_key_of_mem (p : List (Nat × Nat)) (n : Nat)
    (h : n ∈ p.map Prod.fst) :
    p.find? (fun q => q.1 = n) = some (n, lookupRes p n) := by
  induction p with
  | nil => simp at h
  | cons q rest ih =>
    obtain ⟨a, b⟩ := q
    by_cases hq : a = n
    · subst hq
      have hcons : List.find? (fun q : Nat × Nat => decide (q.1 = a))
          ((a, b) :: rest) = some (a, b) := by
        rw [List.find?_cons]
        simp
      unfold lookupRes
      rw [hcons]
      rfl
    · have h' : n ∈ rest.map Prod.fst := by
        simp only [List.map_cons, List.mem_cons] at h
        rcases h with h | h
        · exact absurd h.symm hq
        · exact h
      have hcons : List.find? (fun q : Nat × Nat => decide (q.1 = n))
          ((a, b) :: rest) =
          List.find? (fun q : Nat × Nat => decide (q.1 = n)) rest := by
        rw [List.find?_cons]
        simp [hq]
      unfold lookupRes
      rw [hcons]
      exact ih h'

/-- Looking up an id different from the filtered-out one is unaffected by
the deletion. -/
theorem lookupRes_filter_ne (p : List (Nat × Nat)) (n x : Nat) (hx : x ≠ n) :
    lookupRes (p.filter (fun q => q.1 ≠ n)) x = lookupRes p x := by
  induction p with
  | nil => rfl
  | cons q rest ih =>
    obtain ⟨a, b⟩ := q
    by_cases ha : a = n
    · have hfil : ((a, b) :: rest).filter (fun q => q.1 ≠ n) =
          rest.filter (fun q => q.1 ≠ n) := by
        simp [List.filter_cons, ha]
      have hax : ¬(a = x) := by omega
      have hskip : List.find? (fun q : Nat × Nat => decide (q.1 = x))
          ((a, b) :: rest) =
          List.find? (fun q : Nat × Nat => decide (q.1 = x)) rest := by
        rw [List.find?_cons]
        simp [hax]
      unfold lookupRes
      rw [hfil, hskip]
      exact ih
    · have hfil : ((a, b) :: rest).filter (fun q => q.1 ≠ n) =
          (a, b) :: rest.filter (fun q => q.1 ≠ n) := by
        simp [List.filter_cons, ha]
      by_cases hax : a = x
      · have hhit : ∀ l : List (Nat × Nat),
            List.find? (fun q : Nat × Nat => decide (q.1 = x))
              ((a, b) :: l) = some (a, b) := by
          intro l
          rw [List.find?_cons]
          simp [hax]
        unfold lookupRes
        rw [hfil, hhit, hhit]
      · have hskip : ∀ l : List (Nat × Nat),
            List.find? (fun q : Nat × Nat => decide (q.1 = x))
              ((a, b) :: l) =
              List.find? (fun q : Nat × Nat => decide (q.1 = x)) l := by
          intro l
          rw [List.find?_cons]
          simp [hax]
        unfold lookupRes
        rw [hfil, hskip, hskip]
        exact ih

/-- Bool/Prop bridge for the two spellings of a "not equal to `n`"
filter. -/
theorem filter_bne_eq_filter_ne (l : List Nat) (n : Nat) :
    l.filter (fun x => x != n) = l.filter (fun x => x ≠ n) := by
  apply List.filter_congr
  intro a _
  by_cases h : a = n <;> simp [h]

/-- Issuing one more call appends one pending entry and one posted
message. -/
theorem issueBatch_succ (k : Nat) :
    issueBatch (k + 1) = callWorker (issueBatch k) "m" [] k := by
  simp [issueBatch, List.range_succ]

/-- Closed form of a `k`-call batch: call `i` is pending under id `i + 1`
with resolver token `i`, and the counter stands at `k + 1`. -/
theorem issueBatch_eq (k : Nat) :
    issueBatch k =
      { pendingResolve := (List.range k).map (fun i => (i + 1, i))
        id := k + 1
        posted := (List.range k).map (fun i => ⟨"m", [], i + 1⟩)
        resolved := [] } := by
  induction k with
  | zero => rfl
  | succ k ih =>
    rw [issueBatch_succ, ih]
    simp [callWorker, List.range_succ]

/-- Delivering replies whose ids are a permutation of the pending keys
drains the table and invokes, for each reply in arrival order, the
resolver registered under that reply's id with that reply's result. -/
theorem processReplies_resolves (evs : List (Nat × Nat)) :
    ∀ (p : List (Nat × Nat)) (m : Nat) (po : List PostedMsg)
      (log : List (Nat × Nat)),
      (p.map Prod.fst).Nodup →
      (evs.map Prod.fst).Perm (p.map Prod.fst) →
      processReplies ⟨p, m, po, log⟩
          (evs.map (fun e => ⟨MsgId.num e.1, e.2⟩)) =
        ⟨[], m, po, log ++ evs.map (fun e => (lookupRes p e.1, e.2))⟩ := by
  induction evs with
  | nil =>
    intro p m po log hnd hperm
    have hkeys : p.map Prod.fst = [] := hperm.nil_eq.symm
    have hp : p = [] := by
      cases p with
      | nil => rfl
      | cons q rest => simp at hkeys
    subst hp
    simp [processReplies]
  | cons e rest ih =>
    intro p m po log hnd hperm
    obtain ⟨n, v⟩ := e
    simp only [List.map_cons] at hperm
    have hn : n ∈ p.map Prod.fst := hperm.mem_iff.mp (List.mem_cons_self _ _)
    have hfind := find?_key_of_mem p n hn
    have hstep : onmessage ⟨p, m, po, log⟩ ⟨MsgId.num n, v⟩ =
        ⟨p.filter (fun q => q.1 ≠ n), m, po, log ++ [(lookupRes p n, v)]⟩ := by
      simp only [onmessage, hfind]
    have hnd' : ((p.filter (fun q => q.1 ≠ n)).map Prod.fst).Nodup := by
      rw [keys_filter_ne]
      exact hnd.filter _
    have hperm' : (rest.map Prod.fst).Perm
        ((p.filter (fun q => q.1 ≠ n)).map Prod.fst) := by
      rw [keys_filter_ne, ← filter_bne_eq_filter_ne,
        ← List.Nodup.erase_eq_filter hnd n]
      have hcons : (p.map Prod.fst).Perm (n :: (p.map Prod.fst).erase n) :=
        List.perm_cons_erase hn
      exact (List.Perm.cons_inv (hperm.trans hcons))
    have hnotn : ∀ e ∈ rest, (e : Nat × Nat).1 ≠ n := by
      have hndevs : (n :: rest.map Prod.fst).Nodup := hperm.symm.nodup hnd
      intro e he hen
      have : (e.1 : Nat) ∈ rest.map Prod.fst := List.mem_map_of_mem _ he
      rw [hen] at this
      exact (List.nodup_cons.mp hndevs).1 this
    have hmapeq : rest.map
          (fun e => (lookupRes (p.filter (fun q => q.1 ≠ n)) e.1, e.2)) =
        rest.map (fun e => (lookupRes p e.1, e.2)) := by
      apply List.map_congr_left
      intro e he
      rw [lookupRes_filter_ne p n e.1 (hnotn e he)]
    calc processReplies ⟨p, m, po, log⟩
          (((n, v) :: rest).map (fun e => ⟨MsgId.num e.1, e.2⟩))
        = processReplies
            ⟨p.filter (fun q => q.1 ≠ n), m, po, log ++ [(lookupRes p n, v)]⟩
            (rest.map (fun e => ⟨MsgId.num e.1, e.2⟩)) := by
          simp only [List.map_cons, processReplies, List.foldl_cons, hstep]
      _ = ⟨[], m, po, (log ++ [(lookupRes p n, v)]) ++ rest.map
            (fun e => (lookupRes (p.filter (fun q => q.1 ≠ n)) e.1, e.2))⟩ :=
          ih _ m po _ hnd' hperm'
      _ = ⟨[], m, po, log ++ ((n, v) :: rest).map
            (fun e => (lookupRes p e.1, e.2))⟩ := by
          rw [hmapeq]
          simp

/-- C1. Issue `k` calls (call `i` carries resolver token `i` and is
assigned correlation id `i + 1`); let the reply for id `i + 1` carry
result `f i`.  For every arrival order of the replies (any permutation),
every pending entry is drained and each call's resolver is invoked
exactly once, with exactly the result carried by the reply bearing that
call's own correlation id. -/
theorem call_replies_exactly_once (k : Nat) (f : Nat → Nat)
    (reps : List (Nat × Nat))
    (hperm : reps.Perm ((List.range k).map (fun i => (i + 1, f i)))) :
    (processReplies (issueBatch k)
        (reps.map (fun e => ⟨MsgId.num e.1, e.2⟩))).pendingResolve = [] ∧
    (processReplies (issueBatch k)
        (reps.map (fun e => ⟨MsgId.num e.1, e.2⟩))).resolved.Perm
      ((List.range k).map (fun i => (i, f i))) := by
  have hpend : (issueBatch k).pendingResolve =
      (List.range k).map (fun i => (i + 1, i)) := by rw [issueBatch_eq]
  have hkeys : ((List.range k).map (fun i => (i + 1, i))).map Prod.fst =
      (List.range k).map (fun i => i + 1) := by
    rw [List.map_map]
    rfl
  have hnd : (((List.range k).map (fun i => (i + 1, i))).map Prod.fst).Nodup := by
    rw [hkeys]
    exact (List.nodup_range k).map (fun a b h => by omega)
  have hidperm : (reps.map Prod.fst).Perm
      (((List.range k).map (fun i => (i + 1, i))).map Prod.fst) := by
    rw [hkeys]
    have := hperm.map Prod.fst
    simpa [List.map_map, Function.comp] using this
  have hrun := processReplies_resolves reps
    ((List.range k).map (fun i => (i + 1, i)))
    (k + 1) ((List.range k).map (fun i => ⟨"m", [], i + 1⟩)) [] hnd hidperm
  have hbatch : issueBatch k =
      (⟨(List.range k).map (fun i => (i + 1, i)), k + 1,
        (List.range k).map (fun i => ⟨"m", [], i + 1⟩), []⟩ : ChanState) :=
    issueBatch_eq k
  rw [hbatch, hrun]
  refine ⟨rfl, ?_⟩
  have hlook : ∀ i ∈ List.range k,
      lookupRes ((List.range k).map (fun i => (i + 1, i))) (i + 1) = i := by
    intro i hi
    have hmemkey : i + 1 ∈
        (((List.range k).map (fun i => (i + 1, i))).map Prod.fst) := by
      rw [hkeys]
      exact List.mem_map_of_mem _ hi
    have hfind := find?_key_of_mem _ (i + 1) hmemkey
    have hmem := List.mem_of_find?_eq_some hfind
    obtain ⟨j, hj, hje⟩ := List.mem_map.mp hmem
    have h1 : j + 1 = i + 1 := congrArg Prod.fst hje
    have h2 : (j : Nat) =
        lookupRes ((List.range k).map (fun i => (i + 1, i))) (i + 1) :=
      congrArg Prod.snd hje
    omega
  have hmap := hperm.map
    (fun e : Nat × Nat =>
      (lookupRes ((List.range k).map (fun i => (i + 1, i))) e.1, e.2))
  simp only [List.nil_append]
  refine hmap.trans ?_
  rw [List.map_map]
  apply List.Perm.of_eq
  apply List.map_congr_left
  intro i hi
  simp [Function.comp, hlook i hi]

/-- C1 witness: two calls, replies arriving in reverse order; both
resolvers fire exactly once with their own results. -/
theorem call_replies_exactly_once_w :
    (processReplies (issueBatch 2)
        ([((2 : Nat), (10 : Nat)), (1, 0)].map
          (fun e => ⟨MsgId.num e.1, e.2⟩))).pendingResolve = [] ∧
    (processReplies (issueBatch 2)
        ([((2 : Nat), (10 : Nat)), (1, 0)].map
          (fun e => ⟨MsgId.num e.1, e.2⟩))).resolved.Perm
      ((List.range 2).map (fun i => (i, 10 * i))) :=
  call_replies_exactly_once 2 (fun i => 10 * i) [(2, 10), (1, 0)] (by decide)

/-! ## Cache basics -/

/-- Deleting key `k` from an association list does not change lookups of
other keys. -/
theorem find?_filter_key_ne {α β : Type} [DecidableEq α]
    (c : List (α × β)) (k x : α) (h : x ≠ k) :
    (c.filter (fun q => q.1 ≠ k)).find? (fun q => q.1 = x) =
      c.find? (fun q => q.1 = x) := by
  induction c with
  | nil => rfl
  | cons q rest ih =>
    obtain ⟨a, b⟩ := q
    by_cases ha : a = k
    · have hfil : ((a, b) :: rest).filter (fun q => q.1 ≠ k) =
          rest.filter (fun q => q.1 ≠ k) := by
        simp [List.filter_cons, ha]
      have hax : ¬(a = x) := fun hh => h (hh ▸ ha)
      have hskip : List.find? (fun q : α × β => decide (q.1 = x))
          ((a, b) :: rest) =
          List.find? (fun q : α × β => decide (q.1 = x)) rest := by
        rw [List.find?_cons]
        simp [hax]
      rw [hfil, hskip]
      exact ih
    · have hfil : ((a, b) :: rest).filter (fun q => q.1 ≠ k) =
          (a, b) :: rest.filter (fun q => q.1 ≠ k) := by
        simp [List.filter_cons, ha]
      rw [hfil]
      by_cases hax : a = x
      · subst hax
        have hhit : ∀ l : List (α × β),
            List.find? (fun q : α × β => decide (q.1 = a)) ((a, b) :: l) =
              some (a, b) := by
          intro l
          rw [List.find?_cons]
          simp
        rw [hhit, hhit]
      · have hskip : ∀ l : List (α × β),
            List.find? (fun q : α × β => decide (q.1 = x)) ((a, b) :: l) =
              List.find? (fun q : α × β => decide (q.1 = x)) l := by
          intro l
          rw [List.find?_cons]
          simp [hax]
        rw [hskip, hskip]
        exact ih

/-- Reading back the key just written. -/
theorem Cache.get_set_self (c : Cache) (k : String) (v : CrateStatus) :
    (c.set k v).get k = some v := by
  unfold Cache.set Cache.get
  rw [List.find?_cons]
  simp

/-- Writing one key does not change another key's status. -/
theorem Cache.get_set_ne (c : Cache) (k k' : String) (v : CrateStatus)
    (h : k' ≠ k) :
    (c.set k v).get k' = c.get k' := by
  unfold Cache.set Cache.get
  have hk : ¬((k, v).1 = k') := fun hh => h hh.symm
  have hdk : decide ((k, v).1 = k') = false := by
    simp [hk]
  rw [List.find?_cons, hdk, find?_filter_key_ne c k k' h]

/-! ## Rank monotonicity of the loader -/

theorem statusRank_le_two : ∀ o : Option CrateStatus, statusRank o ≤ 2
  | none => by decide
  | some CrateStatus.empty => by decide
  | some CrateStatus.full => by decide

theorem full_of_rank_two :
    ∀ o : Option CrateStatus, 2 ≤ statusRank o → o = some CrateStatus.full
  | none => by decide
  | some CrateStatus.empty => by decide
  | some CrateStatus.full => by decide

/-- The crate loop over `neededCrates` is rank-monotone whenever the
recursive call is. -/
theorem loadList_rank_mono (env : Env)
    (f : LoaderState → String → Option LoaderState)
    (hf : ∀ st c st', f st c = some st' →
      ∀ x, statusRank (st.cache.get x) ≤ statusRank (st'.cache.get x)) :
    ∀ (names : List String) (st st' : LoaderState),
      loadList env f names st = some st' →
      ∀ x, statusRank (st.cache.get x) ≤ statusRank (st'.cache.get x) := by
  intro names
  induction names with
  | nil =>
    intro st st' h x
    injection h with h
    subst h
    exact le_refl _
  | cons c rest ih =>
    intro st st' h x
    simp only [loadList] at h
    by_cases hc : env.crates.contains c
    · rw [if_pos hc] at h
      cases hfc : f st c with
      | none => rw [hfc] at h; cases h
      | some stm =>
        rw [hfc] at h
        exact le_trans (hf st c stm hfc x) (ih stm st' h x)
    · rw [if_neg hc] at h
      exact ih st st' h x

/-- A completed `loadDependency` never lowers any crate's status. -/
theorem loadF_rank_mono (env : Env) :
    ∀ (fuel : Nat) (st : LoaderState) (name : String) (st' : LoaderState),
      loadDependencyF env fuel st name = some st' →
      ∀ x, statusRank (st.cache.get x) ≤ statusRank (st'.cache.get x) := by
  intro fuel
  induction fuel with
  | zero => intro st name st' h; cases h
  | succ fuel ih =>
    intro st name st' h x
    simp only [loadDependencyF] at h
    by_cases hfull : st.cache.get name = some CrateStatus.full
    · rw [if_pos hfull] at h
      injection h with h
      subst h
      exact le_refl _
    · rw [if_neg hfull] at h
      have hmid : statusRank (st.cache.get x) ≤
          statusRank ((st.cache.set name CrateStatus.full).get x) := by
        by_cases hx : x = name
        · subst hx
          rw [Cache.get_set_self]
          exact statusRank_le_two _
        · rw [Cache.get_set_ne _ _ _ _ hx]
      exact le_trans hmid (loadList_rank_mono env _ ih _ _ st' h x)

/-- A completed `loadDependency(name)` leaves `name` cached `full`. -/
theorem loadF_full_after (env : Env) :
    ∀ (fuel : Nat) (st : LoaderState) (name : String) (st' : LoaderState),
      loadDependencyF env fuel st name = some st' →
      st'.cache.get name = some CrateStatus.full := by
  intro fuel st name st' h
  cases fuel with
  | zero => cases h
  | succ fuel =>
    simp only [loadDependencyF] at h
    by_cases hfull : st.cache.get name = some CrateStatus.full
    · rw [if_pos hfull] at h
      injection h with h
      subst h
      exact hfull
    · rw [if_neg hfull] at h
      have hmid : ((st.cache.set name CrateStatus.full)).get name =
          some CrateStatus.full := Cache.get_set_self _ _ _
      have hmono := loadList_rank_mono env _ (loadF_rank_mono env fuel) _ _
        st' h name
      apply full_of_rank_two
      calc (2 : Nat) = statusRank (some CrateStatus.full) := rfl
        _ ≤ statusRank (st'.cache.get name) := by
            rw [← hmid]
            exact hmono

/-! ## Log structure of the loader -/

/-- The crate loop only appends events, none of them diagnostics
requests, given the recursive call does the same. -/
theorem loadList_log_tail (env : Env)
    (f : LoaderState → String → Option LoaderState)
    (hf : ∀ st c st', f st c = some st' →
      ∃ tail, st'.log = st.log ++ tail ∧ ∀ e ∈ tail, e.isDiag = false) :
    ∀ (names : List String) (st st' : LoaderState),
      loadList env f names st = some st' →
      ∃ tail, st'.log = st.log ++ tail ∧ ∀ e ∈ tail, e.isDiag = false := by
  intro names
  induction names with
  | nil =>
    intro st st' h
    injection h with h
    subst h
    exact ⟨[], by simp, by simp⟩
  | cons c rest ih =>
    intro st st' h
    simp only [loadList] at h
    by_cases hc : env.crates.contains c
    · rw [if_pos hc] at h
      cases hfc : f st c with
      | none => rw [hfc] at h; cases h
      | some stm =>
        rw [hfc] at h
        obtain ⟨t1, ht1, hd1⟩ := hf st c stm hfc
        obtain ⟨t2, ht2, hd2⟩ := ih stm st' h
        refine ⟨t1 ++ t2, ?_, ?_⟩
        · rw [ht2, ht1, List.append_assoc]
        · intro e he
          rcases List.mem_append.mp he with he | he
          · exact hd1 e he
          · exact hd2 e he
    · rw [if_neg hc] at h
      exact ih st st' h

/-- `loadDependency` only appends events, none of them diagnostics
requests. -/
theorem loadF_log_tail (env : Env) :
    ∀ (fuel : Nat) (st : LoaderState) (name : String) (st' : LoaderState),
      loadDependencyF env fuel st name = some st' →
      ∃ tail, st'.log = st.log ++ tail ∧ ∀ e ∈ tail, e.isDiag = false := by
  intro fuel
  induction fuel with
  | zero => intro st name st' h; cases h
  | succ fuel ih =>
    intro st name st' h
    simp only [loadDependencyF] at h
    by_cases hfull : st.cache.get name = some CrateStatus.full
    · rw [if_pos hfull] at h
      injection h with h
      subst h
      exact ⟨[], by simp, by simp⟩
    · rw [if_neg hfull] at h
      obtain ⟨t2, ht2, hd2⟩ := loadList_log_tail env _ ih _ _ st' h
      refine ⟨[LoadEvent.fetch ("/crates/" ++ name ++ ".rs"),
               LoadEvent.fetch ("/crates/" ++ name ++ ".toml"),
               LoadEvent.engineLoadFull name (env.fetchCode name)
                 (env.fetchManifest name)] ++ t2, ?_, ?_⟩
      · rw [ht2]
        simp
      · intro e he
        rcases List.mem_append.mp he with he | he
        · simp only [List.mem_cons, List.not_mem_nil, or_false] at he
          rcases he with rfl | rfl | rfl <;> rfl
        · exact hd2 e he

/-! ## Full-ingestion accounting (at most one ingestion per crate) -/

theorem fullLoadCount_append (l1 l2 : List LoadEvent) (name : String) :
    fullLoadCount (l1 ++ l2) name =
      fullLoadCount l1 name + fullLoadCount l2 name := by
  simp [fullLoadCount, List.filter_append]

/-- The crate loop preserves the ingestion accounting, given the
recursive call does. -/
theorem loadList_goodSt (env : Env)
    (f : LoaderState → String → Option LoaderState)
    (hf : ∀ st c st', f st c = some st' → GoodSt st → GoodSt st') :
    ∀ (names : List String) (st st' : LoaderState),
      loadList env f names st = some st' → GoodSt st → GoodSt st' := by
  intro names
  induction names with
  | nil =>
    intro st st' h hg
    injection h with h
    subst h
    exact hg
  | cons c rest ih =>
    intro st st' h hg
    simp only [loadList] at h
    by_cases hc : env.crates.contains c
    · rw [if_pos hc] at h
      cases hfc : f st c with
      | none => rw [hfc] at h; cases h
      | some stm =>
        rw [hfc] at h
        exact ih stm st' h (hf st c stm hfc hg)
    · rw [if_neg hc] at h
      exact ih st st' h hg

/-- `loadDependency` preserves the ingestion accounting: it ingests a
crate in full exactly when it newly marks it `full`. -/
theorem loadF_goodSt (env : Env) :
    ∀ (fuel : Nat) (st : LoaderState) (name : String) (st' : LoaderState),
      loadDependencyF env fuel st name = some st' → GoodSt st → GoodSt st' := by
  intro fuel
  induction fuel with
  | zero => intro st name st' h; cases h
  | succ fuel ih =>
    intro st name st' h hg
    simp only [loadDependencyF] at h
    by_cases hfull : st.cache.get name = some CrateStatus.full
    · rw [if_pos hfull] at h
      injection h with h
      subst h
      exact hg
    · rw [if_neg hfull] at h
      have hmidGood : GoodSt
          { cache := st.cache.set name CrateStatus.full
            log := st.log ++
              [LoadEvent.fetch ("/crates/" ++ name ++ ".rs"),
               LoadEvent.fetch ("/crates/" ++ name ++ ".toml"),
               LoadEvent.engineLoadFull name (env.fetchCode name)
                 (env.fetchManifest name)] } := by
        intro x
        simp only
        rw [fullLoadCount_append]
        by_cases hx : x = name
        · subst hx
          rw [Cache.get_set_self]
          have hone : fullLoadCount
              [LoadEvent.fetch ("/crates/" ++ x ++ ".rs"),
               LoadEvent.fetch ("/crates/" ++ x ++ ".toml"),
               LoadEvent.engineLoadFull x (env.fetchCode x)
                 (env.fetchManifest x)] x = 1 := by
            simp [fullLoadCount, List.filter_cons, isFullLoadFor]
          rw [hone, hg x, if_neg hfull, if_pos rfl]
        · rw [Cache.get_set_ne _ _ _ _ hx]
          have hzero : fullLoadCount
              [LoadEvent.fetch ("/crates/" ++ name ++ ".rs"),
               LoadEvent.fetch ("/crates/" ++ name ++ ".toml"),
               LoadEvent.engineLoadFull name (env.fetchCode name)
                 (env.fetchManifest name)] x = 0 := by
            have hnx : ¬(name = x) := fun hh => hx hh.symm
            simp [fullLoadCount, List.filter_cons, isFullLoadFor, hnx]
          rw [hzero, hg x, Nat.add_zero]
      exact loadList_goodSt env _ ih _ _ st' h hmidGood

/-! ## Termination of the recursive loader -/

theorem filter_length_le_of_imp {α : Type} (l : List α) (p q : α → Bool)
    (h : ∀ a ∈ l, q a = true → p a = true) :
    (l.filter q).length ≤ (l.filter p).length := by
  induction l with
  | nil => simp
  | cons a rest ih =>
    have hrest := ih (fun b hb => h b (List.mem_cons_of_mem _ hb))
    by_cases hq : q a = true
    · have hp := h a (List.mem_cons_self _ _) hq
      simp only [List.filter_cons, hq, hp, if_true, List.length_cons]
      omega
    · have hq' : q a = false := by
        cases hqa : q a
        · rfl
        · exact absurd hqa hq
      by_cases hp : p a = true
      · simp only [List.filter_cons, hq', hp, if_true, Bool.false_eq_true,
          if_false, List.length_cons]
        omega
      · have hp' : p a = false := by
          cases hpa : p a
          · rfl
          · exact absurd hpa hp
        simp only [List.filter_cons, hq', hp', Bool.false_eq_true, if_false]
        exact hrest

theorem filter_length_lt_of_witness {α : Type} (l : List α) (p q : α → Bool)
    (h : ∀ a ∈ l, q a = true → p a = true) (a : α) (ha : a ∈ l)
    (hpa : p a = true) (hqa : q a = false) :
    (l.filter q).length < (l.filter p).length := by
  induction l with
  | nil => cases ha
  | cons b rest ih =>
    have hrest_le := filter_length_le_of_imp rest p q
      (fun x hx => h x (List.mem_cons_of_mem _ hx))
    rcases List.mem_cons.mp ha with rfl | hmem
    · simp only [List.filter_cons, hqa, hpa, if_true, Bool.false_eq_true,
        if_false, List.length_cons]
      omega
    · have hlt := ih (fun x hx => h x (List.mem_cons_of_mem _ hx)) hmem
      by_cases hqb : q b = true
      · have hpb := h b (List.mem_cons_self _ _) hqb
        simp only [List.filter_cons, hqb, hpb, if_true, List.length_cons]
        omega
      · have hqb' : q b = false := by
          cases hqx : q b
          · rfl
          · exact absurd hqx hqb
        by_cases hpb : p b = true
        · simp only [List.filter_cons, hqb', hpb, if_true, Bool.false_eq_true,
            if_false, List.length_cons]
          omega
        · have hpb' : p b = false := by
            cases hpx : p b
            · rfl
            · exact absurd hpx hpb
          simp only [List.filter_cons, hqb', hpb', Bool.false_eq_true, if_false]
          exact hlt

/-- A rank-monotone cache change cannot increase the number of non-full
permitted crates. -/
theorem notFullCount_mono_of_rank (env : Env) (c c' : Cache)
    (h : ∀ x, statusRank (Cache.get c x) ≤ statusRank (Cache.get c' x)) :
    notFullCount env c' ≤ notFullCount env c := by
  apply filter_length_le_of_imp
  intro a _ hq
  simp only [decide_eq_true_eq] at hq ⊢
  intro hfull
  apply hq
  apply full_of_rank_two
  calc (2 : Nat) = statusRank (Cache.get c a) := by rw [hfull]; rfl
    _ ≤ statusRank (Cache.get c' a) := h a

/-- Marking a permitted, not-yet-full crate `full` strictly decreases the
measure. -/
theorem notFullCount_set_full_lt (env : Env) (c : Cache) (name : String)
    (hmem : name ∈ env.crates) (hnot : Cache.get c name ≠ some CrateStatus.full) :
    notFullCount env (c.set name CrateStatus.full) < notFullCount env c := by
  apply filter_length_lt_of_witness _ _ _ ?_ name hmem ?_ ?_
  · intro a _ hq
    simp only [decide_eq_true_eq] at hq ⊢
    intro hfull
    apply hq
    by_cases hax : a = name
    · subst hax
      exact Cache.get_set_self _ _ _
    · rw [Cache.get_set_ne _ _ _ _ hax]
      exact hfull
  · simp only [decide_eq_true_eq]
    exact hnot
  · simp only [decide_eq_false_iff_not, Decidable.not_not]
    exact Cache.get_set_self _ _ _

/-- One-step unfolding of the fuelled loader at positive fuel. -/
theorem loadDependencyF_succ (env : Env) (fuel : Nat) (st : LoaderState)
    (name : String) :
    loadDependencyF env (fuel + 1) st name =
      if st.cache.get name = some CrateStatus.full then some st
      else
        loadList env (loadDependencyF env fuel) (env.needed name)
          { cache := st.cache.set name CrateStatus.full
            log := st.log ++
              [LoadEvent.fetch ("/crates/" ++ name ++ ".rs"),
               LoadEvent.fetch ("/crates/" ++ name ++ ".toml"),
               LoadEvent.engineLoadFull name (env.fetchCode name)
                 (env.fetchManifest name)] } := rfl

/-- The crate loop completes whenever every recursive call completes on
states below the measure bound. -/
theorem loadList_terminates (env : Env) (fuel : Nat)
    (hterm : ∀ (st : LoaderState) (name : String), name ∈ env.crates →
      notFullCount env st.cache < fuel →
      ∃ st', loadDependencyF env fuel st name = some st') :
    ∀ (names : List String) (st : LoaderState),
      notFullCount env st.cache < fuel →
      ∃ st', loadList env (loadDependencyF env fuel) names st = some st' := by
  intro names
  induction names with
  | nil => intro st _; exact ⟨st, rfl⟩
  | cons c rest ih =>
    intro st hst
    by_cases hc : env.crates.contains c
    · have hcm : c ∈ env.crates := List.elem_iff.mp hc
      obtain ⟨stm, hstm⟩ := hterm st c hcm hst
      have hcount : notFullCount env stm.cache ≤ notFullCount env st.cache :=
        notFullCount_mono_of_rank env _ _
          (loadF_rank_mono env fuel st c stm hstm)
      obtain ⟨st', hst'⟩ := ih stm (Nat.lt_of_le_of_lt hcount hst)
      refine ⟨st', ?_⟩
      simp only [loadList]
      rw [if_pos hc, hstm]
      exact hst'
    · obtain ⟨st', hst'⟩ := ih st hst
      refine ⟨st', ?_⟩
      simp only [loadList]
      rw [if_neg hc]
      exact hst'

/-- `loadDependency` on a permitted crate completes whenever the fuel
exceeds the number of non-full permitted crates: each full ingestion
strictly shrinks that measure because the crate is marked `full` in the
cache before its requirements are recursed into. -/
theorem loadF_terminates (env : Env) :
    ∀ (fuel : Nat) (st : LoaderState) (name : String),
      name ∈ env.crates → notFullCount env st.cache < fuel →
      ∃ st', loadDependencyF env fuel st name = some st' := by
  intro fuel
  induction fuel with
  | zero => intro st name _ h; exact absurd h (Nat.not_lt_zero _)
  | succ fuel ih =>
    intro st name hmem hcount
    by_cases hfull : st.cache.get name = some CrateStatus.full
    · refine ⟨st, ?_⟩
      simp only [loadDependencyF]
      rw [if_pos hfull]
    · have hlt : notFullCount env (st.cache.set name CrateStatus.full) <
        notFullCount env st.cache := notFullCount_set_full_lt env _ _ hmem hfull
      obtain ⟨st', hst'⟩ := loadList_terminates env fuel ih (env.needed name)
        { cache := st.cache.set name CrateStatus.full
          log := st.log ++
            [LoadEvent.fetch ("/crates/" ++ name ++ ".rs"),
             LoadEvent.fetch ("/crates/" ++ name ++ ".toml"),
             LoadEvent.engineLoadFull name (env.fetchCode name)
               (env.fetchManifest name)] }
        (by
          show notFullCount env (st.cache.set name CrateStatus.full) < fuel
          omega)
      refine ⟨st', ?_⟩
      simp only [loadDependencyF]
      rw [if_neg hfull]
      exact hst'

/-- `loadDependency` completes on any name (permitted or not) with fuel
two above the measure. -/
theorem loadF_terminates_any (env : Env) (st : LoaderState) (name : String) :
    ∃ st', loadDependencyF env (notFullCount env st.cache + 2) st name =
      some st' := by
  by_cases hfull : st.cache.get name = some CrateStatus.full
  · refine ⟨st, ?_⟩
    simp only [loadDependencyF]
    rw [if_pos hfull]
  · have hmid_le : notFullCount env (st.cache.set name CrateStatus.full) ≤
        notFullCount env st.cache := by
      apply notFullCount_mono_of_rank
      intro x
      by_cases hx : x = name
      · subst hx
        rw [Cache.get_set_self]
        exact statusRank_le_two _
      · rw [Cache.get_set_ne _ _ _ _ hx]
    obtain ⟨st', hst'⟩ := loadList_terminates env
      (notFullCount env st.cache + 1)
      (fun st2 n2 hm hc => loadF_terminates env _ st2 n2 hm hc)
      (env.needed name)
      { cache := st.cache.set name CrateStatus.full
        log := st.log ++
          [LoadEvent.fetch ("/crates/" ++ name ++ ".rs"),
           LoadEvent.fetch ("/crates/" ++ name ++ ".toml"),
           LoadEvent.engineLoadFull name (env.fetchCode name)
             (env.fetchManifest name)] }
      (by
        show notFullCount env (st.cache.set name CrateStatus.full) <
          notFullCount env st.cache + 1
        omega)
    refine ⟨st', ?_⟩
    simp only [loadDependencyF]
    rw [if_neg hfull]
    exact hst'

/-- The total wrapper `loadDependency` is the fuelled recursion's result:
the fuel `notFullCount + 2` never runs out. -/
theorem loadDependency_spec (env : Env) (st : LoaderState) (name : String) :
    loadDependencyF env (notFullCount env st.cache + 2) st name =
      some (loadDependency env st name) := by
  obtain ⟨st', h⟩ := loadF_terminates_any env st name
  unfold loadDependency
  rw [h]
  rfl

theorem loadDependency_full_after (env : Env) (st : LoaderState)
    (name : String) :
    (loadDependency env st name).cache.get name = some CrateStatus.full :=
  loadF_full_after env _ st name _ (loadDependency_spec env st name)

theorem loadDependency_rank_mono (env : Env) (st : LoaderState)
    (name x : String) :
    statusRank (st.cache.get x) ≤
      statusRank ((loadDependency env st name).cache.get x) :=
  loadF_rank_mono env _ st name _ (loadDependency_spec env st name) x

theorem loadDependency_goodSt (env : Env) (st : LoaderState) (name : String)
    (h : GoodSt st) : GoodSt (loadDependency env st name) :=
  loadF_goodSt env _ st name _ (loadDependency_spec env st name) h

theorem loadDependency_log_tail (env : Env) (st : LoaderState)
    (name : String) :
    ∃ tail, (loadDependency env st name).log = st.log ++ tail ∧
      ∀ e ∈ tail, e.isDiag = false :=
  loadF_log_tail env _ st name _ (loadDependency_spec env st name)

/-- A crate already cached `full` makes `loadDependency` a pure no-op. -/
theorem loadDependency_of_full (env : Env) (st : LoaderState) (name : String)
    (h : st.cache.get name = some CrateStatus.full) :
    loadDependency env st name = st := by
  unfold loadDependency
  have hsome : loadDependencyF env (notFullCount env st.cache + 2) st name =
      some st := by
    simp only [loadDependencyF]
    rw [if_pos h]
  rw [hsome]
  rfl

/-- C2. `loadDependency` (the spec's `ensureFull`) is idempotent: after a
first invocation the crate is cached `Full`, and a second invocation in
sequence returns the state unchanged — in particular its side-effect log
is unchanged, so no further fetch or engine call is issued. -/
theorem ensureFull_idempotent (env : Env) (st : LoaderState) (name : String) :
    (loadDependency env st name).cache.get name = some CrateStatus.full ∧
    loadDependency env (loadDependency env st name) name =
      loadDependency env st name ∧
    (loadDependency env (loadDependency env st name) name).log =
      (loadDependency env st name).log := by
  have hfull := loadDependency_full_after env st name
  have hnoop := loadDependency_of_full env _ name hfull
  exact ⟨hfull, hnoop, by rw [hnoop]⟩

/-- Every permitted crate processed by the crate loop ends cached
`full`. -/
theorem loadList_full_each (env : Env)
    (f : LoaderState → String → Option LoaderState)
    (hf_after : ∀ st c st', f st c = some st' →
      st'.cache.get c = some CrateStatus.full)
    (hf_mono : ∀ st c st', f st c = some st' →
      ∀ x, statusRank (st.cache.get x) ≤ statusRank (st'.cache.get x)) :
    ∀ (names : List String) (st st' : LoaderState),
      loadList env f names st = some st' →
      ∀ c ∈ names, env.crates.contains c = true →
        st'.cache.get c = some CrateStatus.full := by
  intro names
  induction names with
  | nil => intro st st' _ c hc; cases hc
  | cons b rest ih =>
    intro st st' h c hc hcc
    simp only [loadList] at h
    rcases List.mem_cons.mp hc with rfl | hmem
    · rw [if_pos hcc] at h
      cases hfc : f st c with
      | none => rw [hfc] at h; cases h
      | some stm =>
        rw [hfc] at h
        have hfullm := hf_after st c stm hfc
        have hrank := loadList_rank_mono env f hf_mono rest stm st' h c
        apply full_of_rank_two
        rw [hfullm] at hrank
        exact hrank
    · by_cases hbc : env.crates.contains b
      · rw [if_pos hbc] at h
        cases hfb : f st b with
        | none => rw [hfb] at h; cases h
        | some stm =>
          rw [hfb] at h
          exact ih stm st' h c hmem hcc
      · rw [if_neg hbc] at h
        exact ih st st' h c hmem hcc

/-- C3. For every dependency graph (`env.needed`, cycles included) and
every permitted crate `A` not yet fully loaded, `loadDependency(A)`
terminates — the fuelled recursion completes within `notFullCount + 2`
steps, because each name is marked `full` in the cache before its
requirements are recursed into — and on completion `A` and every
permitted requirement of `A` (such as the partner `B` of a two-cycle) are
cached `full`. -/
theorem ensureFull_cycle_terminates (env : Env) (st : LoaderState)
    (A : String) (hA : A ∈ env.crates)
    (hnf : st.cache.get A ≠ some CrateStatus.full) :
    loadDependencyF env (notFullCount env st.cache + 2) st A =
      some (loadDependency env st A) ∧
    (loadDependency env st A).cache.get A = some CrateStatus.full ∧
    ∀ B ∈ env.needed A, B ∈ env.crates →
      (loadDependency env st A).cache.get B = some CrateStatus.full := by
  refine ⟨loadDependency_spec env st A, loadDependency_full_after env st A, ?_⟩
  have hspec := loadDependency_spec env st A
  have h2 : notFullCount env st.cache + 2 =
      (notFullCount env st.cache + 1) + 1 := rfl
  rw [h2, loadDependencyF_succ, if_neg hnf] at hspec
  intro B hB hBc
  exact loadList_full_each env
    (loadDependencyF env (notFullCount env st.cache + 1))
    (fun st2 c2 st2' hh => loadF_full_after env _ st2 c2 st2' hh)
    (fun st2 c2 st2' hh => loadF_rank_mono env _ st2 c2 st2' hh)
    (env.needed A) _ _ hspec B hB (List.elem_iff.mpr hBc)

/-- C3 witness: the concrete cycle `a ↔ b` from a fresh cache terminates
with both `a` and `b` fully loaded. -/
theorem ensureFull_cycle_terminates_w :
    loadDependencyF cycleEnv (notFullCount cycleEnv (⟨[], []⟩ : LoaderState).cache + 2)
        ⟨[], []⟩ "a" = some (loadDependency cycleEnv ⟨[], []⟩ "a") ∧
    (loadDependency cycleEnv ⟨[], []⟩ "a").cache.get "a" =
      some CrateStatus.full ∧
    ∀ B ∈ cycleEnv.needed "a", B ∈ cycleEnv.crates →
      (loadDependency cycleEnv ⟨[], []⟩ "a").cache.get B =
        some CrateStatus.full :=
  ensureFull_cycle_terminates cycleEnv ⟨[], []⟩ "a" (by decide) (by decide)

/-! ## `markSeen`, `crateStep` and the update loop -/

theorem markSeen_of_none (st : LoaderState) (c : String)
    (h : st.cache.get c = none) :
    markSeen st c =
      { cache := st.cache.set c CrateStatus.empty
        log := st.log ++ [LoadEvent.engineLoadEmpty c] } := by
  unfold markSeen
  rw [h]

theorem markSeen_of_some (st : LoaderState) (c : String) (s : CrateStatus)
    (h : st.cache.get c = some s) :
    markSeen st c = st := by
  unfold markSeen
  rw [h]
  cases s <;> rfl

theorem crateStep_of_full (env : Env) (text : String) (st : LoaderState)
    (c : String) (h : st.cache.get c = some CrateStatus.full) :
    crateStep env text st c = st := by
  unfold crateStep
  rw [h]

theorem crateStep_of_not_full (env : Env) (text : String) (st : LoaderState)
    (c : String) (h : st.cache.get c ≠ some CrateStatus.full) :
    crateStep env text st c =
      if usesCrate c text then loadDependency env st c else markSeen st c := by
  unfold crateStep
  cases hc : st.cache.get c with
  | none => rfl
  | some s =>
    cases s with
    | full => exact absurd hc h
    | empty => rfl

theorem markSeen_rank_mono (st : LoaderState) (c x : String) :
    statusRank (st.cache.get x) ≤ statusRank ((markSeen st c).cache.get x) := by
  cases hc : st.cache.get c with
  | none =>
    rw [markSeen_of_none st c hc]
    show statusRank (st.cache.get x) ≤
      statusRank ((st.cache.set c CrateStatus.empty).get x)
    by_cases hx : x = c
    · subst hx
      rw [Cache.get_set_self, hc]
      decide
    · rw [Cache.get_set_ne _ _ _ _ hx]
  | some s =>
    rw [markSeen_of_some st c s hc]

theorem crateStep_rank_mono (env : Env) (text : String) (st : LoaderState)
    (c x : String) :
    statusRank (st.cache.get x) ≤
      statusRank ((crateStep env text st c).cache.get x) := by
  by_cases h : st.cache.get c = some CrateStatus.full
  · rw [crateStep_of_full env text st c h]
  · rw [crateStep_of_not_full env text st c h]
    by_cases hu : usesCrate c text
    · rw [if_pos hu]
      exact loadDependency_rank_mono env st c x
    · rw [if_neg hu]
      exact markSeen_rank_mono st c x

theorem updateLoop_rank_mono (env : Env) (text : String) :
    ∀ (cs : List String) (st : LoaderState) (x : String),
      statusRank (st.cache.get x) ≤
        statusRank ((updateLoop env text cs st).cache.get x) := by
  intro cs
  induction cs with
  | nil => intro st x; exact le_refl _
  | cons c rest ih =>
    intro st x
    exact le_trans (crateStep_rank_mono env text st c x)
      (ih (crateStep env text st c) x)

theorem update_cache_eq (env : Env) (st : LoaderState) (path text : String) :
    (update env st path text).cache = (updateLoop env text env.crates st).cache
    := rfl

theorem opStep_rank_mono (env : Env) (st : LoaderState) (op : Op)
    (x : String) :
    statusRank (st.cache.get x) ≤ statusRank ((opStep env st op).cache.get x)
    := by
  cases op with
  | update p t =>
    show statusRank (st.cache.get x) ≤
      statusRank ((update env st p t).cache.get x)
    rw [update_cache_eq]
    exact updateLoop_rank_mono env t env.crates st x
  | load n => exact loadDependency_rank_mono env st n x
  | markSeen n => exact markSeen_rank_mono st n x

theorem runOps_rank_mono (env : Env) :
    ∀ (ops : List Op) (st : LoaderState) (x : String),
      statusRank (st.cache.get x) ≤
        statusRank ((runOps env st ops).cache.get x) := by
  intro ops
  induction ops with
  | nil => intro st x; exact le_refl _
  | cons op rest ih =>
    intro st x
    exact le_trans (opStep_rank_mono env st op x) (ih (opStep env st op) x)

/-- C4. Across any sequence of core operations (`update`,
`loadDependency`/`ensureFull`, `markSeen`), every crate's cached status is
monotone along `NotLoaded → Empty → Full`, and `Full` is terminal: once a
name reads back `Full`, no subsequent operation makes it read back
`Empty` or `NotLoaded`. -/
theorem status_monotonic_full_terminal (env : Env) (ops : List Op)
    (st : LoaderState) (name : String) :
    statusRank (st.cache.get name) ≤
      statusRank ((runOps env st ops).cache.get name) ∧
    (st.cache.get name = some CrateStatus.full →
      (runOps env st ops).cache.get name = some CrateStatus.full) := by
  refine ⟨runOps_rank_mono env ops st name, fun h => ?_⟩
  apply full_of_rank_two
  have hmono := runOps_rank_mono env ops st name
  rw [h] at hmono
  exact hmono

/-- C4 witness: a crate cached `Full` stays `Full` across a `markSeen`
and a whole `update` run. -/
theorem status_monotonic_full_terminal_w :
    (runOps cycleEnv ⟨[("a", CrateStatus.full)], []⟩
        [Op.markSeen "a", Op.update "/p" "t"]).cache.get "a" =
      some CrateStatus.full :=
  (status_monotonic_full_terminal cycleEnv [Op.markSeen "a", Op.update "/p" "t"]
      ⟨[("a", CrateStatus.full)], []⟩ "a").2 (by decide)

/-! ## The update pipeline on text with no usage markers (C6) -/

theorem markSeen_get_ne (st : LoaderState) (c x : String) (hx : x ≠ c) :
    (markSeen st c).cache.get x = st.cache.get x := by
  cases hc : st.cache.get c with
  | none =>
    rw [markSeen_of_none st c hc]
    exact Cache.get_set_ne _ _ _ _ hx
  | some s =>
    rw [markSeen_of_some st c s hc]

/-- What one full pass of `update`'s loop does when the text uses no
crate in the list: fresh names get registered empty (in list order), and
every name that already had a status keeps it untouched. -/
theorem updateLoop_no_usage (env : Env) (text : String) :
    ∀ (cs : List String) (st : LoaderState),
      cs.Nodup → (∀ c ∈ cs, usesCrate c text = false) →
      (∀ c ∈ cs,
        (updateLoop env text cs st).cache.get c =
          some (match st.cache.get c with
                | none => CrateStatus.empty
                | some s => s)) ∧
      (updateLoop env text cs st).log =
        st.log ++ (cs.filter (fun c => st.cache.get c = none)).map
          LoadEvent.engineLoadEmpty ∧
      ∀ x, x ∉ cs → (updateLoop env text cs st).cache.get x = st.cache.get x
    := by
  intro cs
  induction cs with
  | nil =>
    intro st _ _
    refine ⟨fun c hc => absurd hc (List.not_mem_nil c), by simp [updateLoop],
      fun x _ => rfl⟩
  | cons c rest ih =>
    intro st hnodup hno
    have hnodup' := (List.nodup_cons.mp hnodup).2
    have hcnotin := (List.nodup_cons.mp hnodup).1
    have hno' : ∀ b ∈ rest, usesCrate b text = false :=
      fun b hb => hno b (List.mem_cons_of_mem _ hb)
    have hnoc : usesCrate c text = false := hno c (List.mem_cons_self _ _)
    cases hc : st.cache.get c with
    | some s =>
      have hstep : crateStep env text st c = st := by
        cases s with
        | full => exact crateStep_of_full env text st c hc
        | empty =>
          rw [crateStep_of_not_full env text st c (by rw [hc]; intro hh; cases hh),
            hnoc]
          simp only [Bool.false_eq_true, if_false]
          exact markSeen_of_some st c _ hc
      obtain ⟨ih1, ih2, ih3⟩ := ih st hnodup' hno'
      have hloop : updateLoop env text (c :: rest) st =
          updateLoop env text rest st := by
        show updateLoop env text rest (crateStep env text st c) = _
        rw [hstep]
      refine ⟨?_, ?_, ?_⟩
      · intro b hb
        rcases List.mem_cons.mp hb with rfl | hb
        · rw [hloop, ih3 b hcnotin, hc]
        · rw [hloop]
          exact ih1 b hb
      · rw [hloop, ih2, List.filter_cons]
        have : (decide (st.cache.get c = none)) = false := by
          simp [hc]
        rw [this]
        simp
      · intro x hx
        rw [hloop]
        exact ih3 x (fun hh => hx (List.mem_cons_of_mem _ hh))
    | none =>
      have hstep : crateStep env text st c =
          { cache := st.cache.set c CrateStatus.empty
            log := st.log ++ [LoadEvent.engineLoadEmpty c] } := by
        rw [crateStep_of_not_full env text st c (by rw [hc]; intro hh; cases hh),
          hnoc]
        simp only [Bool.false_eq_true, if_false]
        exact markSeen_of_none st c hc
      set st1 : LoaderState :=
        { cache := st.cache.set c CrateStatus.empty
          log := st.log ++ [LoadEvent.engineLoadEmpty c] } with hst1
      have hget1 : ∀ x, x ≠ c → st1.cache.get x = st.cache.get x := by
        intro x hx
        show (st.cache.set c CrateStatus.empty).get x = st.cache.get x
        exact Cache.get_set_ne _ _ _ _ hx
      obtain ⟨ih1, ih2, ih3⟩ := ih st1 hnodup' hno'
      have hloop : updateLoop env text (c :: rest) st =
          updateLoop env text rest st1 := by
        show updateLoop env text rest (crateStep env text st c) = _
        rw [hstep]
      refine ⟨?_, ?_, ?_⟩
      · intro b hb
        rcases List.mem_cons.mp hb with rfl | hb
        · rw [hloop, ih3 b hcnotin, hc]
          show (st.cache.set b CrateStatus.empty).get b = _
          rw [Cache.get_set_self]
        · rw [hloop, ih1 b hb,
            hget1 b (fun hh => hcnotin (hh ▸ hb))]
      · rw [hloop, ih2]
        have hfil : rest.filter (fun b => st1.cache.get b = none) =
            rest.filter (fun b => st.cache.get b = none) := by
          apply List.filter_congr
          intro b hb
          rw [hget1 b (fun hh => hcnotin (hh ▸ hb))]
        rw [hfil, List.filter_cons]
        have hdec : (decide (st.cache.get c = none)) = true := by
          simp [hc]
        rw [hdec]
        simp [hst1]
      · intro x hx
        have hxc : x ≠ c := fun hh => hx (hh ▸ List.mem_cons_self _ _)
        have hxr : x ∉ rest := fun hh => hx (List.mem_cons_of_mem _ hh)
        rw [hloop, ih3 x hxr, hget1 x hxc]

/-- C6. Running `update` on text with no `name::` usage for any permitted
crate: every crate with no cached status is registered as a
known-but-empty crate — one `state.loadDependency(name)` call per fresh
name, in the fixed crate order, ending `Empty` (not `Full`) — while any
crate already cached (`Full` or `Empty`) keeps its status and gets no
registration call; the log grows by exactly those registrations plus the
final diagnostics request. -/
theorem update_no_usage (env : Env) (st : LoaderState) (path text : String)
    (hnodup : env.crates.Nodup)
    (hno : ∀ c ∈ env.crates, usesCrate c text = false) :
    (∀ c ∈ env.crates,
      (update env st path text).cache.get c =
        some (match st.cache.get c with
              | none => CrateStatus.empty
              | some s => s)) ∧
    (update env st path text).log =
      st.log ++
        (env.crates.filter (fun c => st.cache.get c = none)).map
          LoadEvent.engineLoadEmpty ++
        [LoadEvent.engineUpdate path text] := by
  obtain ⟨h1, h2, _⟩ := updateLoop_no_usage env text env.crates st hnodup hno
  constructor
  · intro c hc
    rw [update_cache_eq]
    exact h1 c hc
  · show (updateLoop env text env.crates st).log ++
      [LoadEvent.engineUpdate path text] = _
    rw [h2]

/-- C6 witness: from a cache where `"a"` is already `Full`, an update on
usage-free text registers only `"b"` as empty and leaves `"a"` alone. -/
theorem update_no_usage_w :
    (∀ c ∈ cycleEnv.crates,
      (update cycleEnv ⟨[("a", CrateStatus.full)], []⟩ "/p" "t").cache.get c =
        some (match Cache.get [("a", CrateStatus.full)] c with
              | none => CrateStatus.empty
              | some s => s)) ∧
    (update cycleEnv ⟨[("a", CrateStatus.full)], []⟩ "/p" "t").log =
      [] ++
        (cycleEnv.crates.filter
          (fun c => Cache.get [("a", CrateStatus.full)] c = none)).map
          LoadEvent.engineLoadEmpty ++
        [LoadEvent.engineUpdate "/p" "t"] :=
  update_no_usage cycleEnv ⟨[("a", CrateStatus.full)], []⟩ "/p" "t"
    (by decide) (by decide)

/-! ## Sequencing inside one update invocation (C7) -/

theorem updateLoop_eq_foldl (env : Env) (text : String) :
    ∀ (cs : List String) (st : LoaderState),
      updateLoop env text cs st = cs.foldl (crateStep env text) st := by
  intro cs
  induction cs with
  | nil => intro st; rfl
  | cons c rest ih =>
    intro st
    show updateLoop env text rest (crateStep env text st c) = _
    rw [ih, List.foldl_cons]

theorem scanl_head? {α β : Type} (f : β → α → β) (l : List α) (b : β) :
    (List.scanl f b l).head? = some b := by
  cases l with
  | nil => rfl
  | cons a rest => rw [List.scanl_cons]; rfl

theorem scanl_getLast? {α β : Type} (f : β → α → β) :
    ∀ (l : List α) (b : β),
      (List.scanl f b l).getLast? = some (l.foldl f b) := by
  intro l
  induction l with
  | nil => intro b; rfl
  | cons a rest ih =>
    intro b
    rw [List.scanl_cons, List.foldl_cons]
    show (b :: List.scanl f (f b a) rest).getLast? = _
    rw [List.getLast?_cons, ih (f b a)]
    rfl

theorem markSeen_log_tail (st : LoaderState) (c : String) :
    ∃ tail, (markSeen st c).log = st.log ++ tail ∧
      ∀ e ∈ tail, e.isDiag = false := by
  cases hc : st.cache.get c with
  | none =>
    rw [markSeen_of_none st c hc]
    refine ⟨[LoadEvent.engineLoadEmpty c], rfl, ?_⟩
    intro e he
    simp only [List.mem_cons, List.not_mem_nil, or_false] at he
    subst he
    rfl
  | some s =>
    rw [markSeen_of_some st c s hc]
    exact ⟨[], by simp, by simp⟩

theorem crateStep_log_tail (env : Env) (text : String) (st : LoaderState)
    (c : String) :
    ∃ tail, (crateStep env text st c).log = st.log ++ tail ∧
      ∀ e ∈ tail, e.isDiag = false := by
  by_cases h : st.cache.get c = some CrateStatus.full
  · rw [crateStep_of_full env text st c h]
    exact ⟨[], by simp, by simp⟩
  · rw [crateStep_of_not_full env text st c h]
    by_cases hu : usesCrate c text
    · rw [if_pos hu]
      exact loadDependency_log_tail env st c
    · rw [if_neg hu]
      exact markSeen_log_tail st c

theorem scanl_chain'_log (env : Env) (text : String) :
    ∀ (cs : List String) (st : LoaderState),
      List.Chain' (fun a b => ∃ tail, b.log = a.log ++ tail ∧
        ∀ e ∈ tail, e.isDiag = false)
        (List.scanl (crateStep env text) st cs) := by
  intro cs
  induction cs with
  | nil =>
    intro st
    rw [List.scanl_nil]
    exact List.chain'_singleton _
  | cons c rest ih =>
    intro st
    rw [List.scanl_cons]
    show List.Chain' _ (st :: List.scanl (crateStep env text)
      (crateStep env text st c) rest)
    rw [List.chain'_cons']
    refine ⟨?_, ih _⟩
    intro y hy
    rw [scanl_head?] at hy
    have hy' : y = crateStep env text st c := by
      simpa using hy.symm
    subst hy'
    exact crateStep_log_tail env text st c

theorem updateLoop_log_events (env : Env) (text : String) :
    ∀ (cs : List String) (st : LoaderState),
      ∀ e ∈ (updateLoop env text cs st).log, e ∈ st.log ∨ e.isDiag = false := by
  intro cs
  induction cs with
  | nil => intro st e he; exact Or.inl he
  | cons c rest ih =>
    intro st e he
    have h1 := ih (crateStep env text st c) e he
    rcases h1 with h1 | h1
    · obtain ⟨tail, ht, hd⟩ := crateStep_log_tail env text st c
      rw [ht] at h1
      rcases List.mem_append.mp h1 with h | h
      · exact Or.inl h
      · exact Or.inr (hd e h)
    · exact Or.inr h1

/-- C7. Within one `update` invocation the crate-loading steps run
sequentially in the fixed order of the permitted crate list — the scan of
intermediate states steps through `crateStep` one crate at a time, each
iteration's events fully appended to the log before the next starts, none
of them a diagnostics request — and the diagnostics request
`state.update(path, text)` is the very last event, issued only after the
whole loop has completed. -/
theorem update_sequential (env : Env) (st : LoaderState) (path text : String) :
    List.Chain' (fun a b => ∃ tail, b.log = a.log ++ tail ∧
      ∀ e ∈ tail, e.isDiag = false)
      (List.scanl (crateStep env text) st env.crates) ∧
    (List.scanl (crateStep env text) st env.crates).getLast? =
      some (updateLoop env text env.crates st) ∧
    (update env st path text).log =
      (updateLoop env text env.crates st).log ++
        [LoadEvent.engineUpdate path text] ∧
    ∀ e ∈ (updateLoop env text env.crates st).log,
      e ∈ st.log ∨ e.isDiag = false := by
  refine ⟨scanl_chain'_log env text env.crates st, ?_, rfl,
    updateLoop_log_events env text env.crates st⟩
  rw [scanl_getLast?, updateLoop_eq_foldl]

/-! ## The update pipeline on text that uses a crate (C5) -/

theorem crateStep_keeps_full (env : Env) (text : String) (st : LoaderState)
    (c x : String) (h : st.cache.get x = some CrateStatus.full) :
    (crateStep env text st c).cache.get x = some CrateStatus.full := by
  apply full_of_rank_two
  have hmono := crateStep_rank_mono env text st c x
  rw [h] at hmono
  exact hmono

theorem updateLoop_keeps_full (env : Env) (text : String)
    (cs : List String) (st : LoaderState) (x : String)
    (h : st.cache.get x = some CrateStatus.full) :
    (updateLoop env text cs st).cache.get x = some CrateStatus.full := by
  apply full_of_rank_two
  have hmono := updateLoop_rank_mono env text cs st x
  rw [h] at hmono
  exact hmono

/-- A crate used by the text and reached by the loop ends `full`. -/
theorem updateLoop_member_full (env : Env) (text foo : String)
    (huse : usesCrate foo text = true) :
    ∀ (cs : List String) (st : LoaderState), foo ∈ cs →
      (updateLoop env text cs st).cache.get foo = some CrateStatus.full := by
  intro cs
  induction cs with
  | nil => intro st h; cases h
  | cons c rest ih =>
    intro st hmem
    rcases List.mem_cons.mp hmem with rfl | hmem
    · by_cases hfull : st.cache.get foo = some CrateStatus.full
      · show (updateLoop env text rest (crateStep env text st foo)).cache.get
          foo = _
        exact updateLoop_keeps_full env text rest _ foo
          (crateStep_keeps_full env text st foo foo hfull)
      · have hstep : crateStep env text st foo = loadDependency env st foo := by
          rw [crateStep_of_not_full env text st foo hfull, if_pos huse]
        show (updateLoop env text rest (crateStep env text st foo)).cache.get
          foo = _
        rw [hstep]
        exact updateLoop_keeps_full env text rest _ foo
          (loadDependency_full_after env st foo)
    · show (updateLoop env text rest (crateStep env text st c)).cache.get
        foo = _
      exact ih _ hmem

theorem markSeen_goodSt (st : LoaderState) (c : String) (h : GoodSt st) :
    GoodSt (markSeen st c) := by
  cases hc : st.cache.get c with
  | some s =>
    rw [markSeen_of_some st c s hc]
    exact h
  | none =>
    rw [markSeen_of_none st c hc]
    intro x
    show fullLoadCount (st.log ++ [LoadEvent.engineLoadEmpty c]) x =
      if (st.cache.set c CrateStatus.empty).get x = some CrateStatus.full
      then 1 else 0
    rw [fullLoadCount_append]
    have hz : fullLoadCount [LoadEvent.engineLoadEmpty c] x = 0 := by
      simp [fullLoadCount, List.filter_cons, isFullLoadFor]
    rw [hz, Nat.add_zero, h x]
    by_cases hx : x = c
    · subst hx
      rw [hc, Cache.get_set_self]
      simp
    · rw [Cache.get_set_ne _ _ _ _ hx]

theorem crateStep_goodSt (env : Env) (text : String) (st : LoaderState)
    (c : String) (h : GoodSt st) : GoodSt (crateStep env text st c) := by
  by_cases hf : st.cache.get c = some CrateStatus.full
  · rw [crateStep_of_full env text st c hf]
    exact h
  · rw [crateStep_of_not_full env text st c hf]
    by_cases hu : usesCrate c text
    · rw [if_pos hu]
      exact loadDependency_goodSt env st c h
    · rw [if_neg hu]
      exact markSeen_goodSt st c h

theorem updateLoop_goodSt (env : Env) (text : String) :
    ∀ (cs : List String) (st : LoaderState),
      GoodSt st → GoodSt (updateLoop env text cs st) := by
  intro cs
  induction cs with
  | nil => intro st h; exact h
  | cons c rest ih =>
    intro st h
    exact ih _ (crateStep_goodSt env text st c h)

theorem update_goodSt (env : Env) (st : LoaderState) (path text : String)
    (h : GoodSt st) : GoodSt (update env st path text) := by
  intro x
  show fullLoadCount ((updateLoop env text env.crates st).log ++
      [LoadEvent.engineUpdate path text]) x =
    if (updateLoop env text env.crates st).cache.get x =
      some CrateStatus.full then 1 else 0
  rw [fullLoadCount_append]
  have hz : fullLoadCount [LoadEvent.engineUpdate path text] x = 0 := by
    simp [fullLoadCount, List.filter_cons, isFullLoadFor]
  rw [hz, Nat.add_zero]
  exact updateLoop_goodSt env text env.crates st h x

/-- `markSeen` never produces a `full` status. -/
theorem markSeen_get_not_full (st : LoaderState) (c x : String)
    (h : st.cache.get x ≠ some CrateStatus.full) :
    (markSeen st c).cache.get x ≠ some CrateStatus.full := by
  by_cases hx : x = c
  · subst hx
    cases hc : st.cache.get x with
    | none =>
      rw [markSeen_of_none st x hc]
      show (st.cache.set x CrateStatus.empty).get x ≠ _
      rw [Cache.get_set_self]
      intro hh
      cases hh
    | some s =>
      rw [markSeen_of_some st x s hc]
      exact h
  · rw [markSeen_get_ne st c x hx]
    exact h

/-- Inside one `loadDependency` run, whenever a crate transitions to
`full`, all its permitted requirements are `full` at the end of the run:
list-processing part. -/
theorem loadList_needed_full (env : Env) (fuel : Nat)
    (ihneed : ∀ (st : LoaderState) (name : String) (st' : LoaderState),
      loadDependencyF env fuel st name = some st' →
      ∀ x, st.cache.get x ≠ some CrateStatus.full →
        st'.cache.get x = some CrateStatus.full →
        ∀ c ∈ env.needed x, env.crates.contains c = true →
          st'.cache.get c = some CrateStatus.full) :
    ∀ (names : List String) (st st' : LoaderState),
      loadList env (loadDependencyF env fuel) names st = some st' →
      ∀ x, st.cache.get x ≠ some CrateStatus.full →
        st'.cache.get x = some CrateStatus.full →
        ∀ c ∈ env.needed x, env.crates.contains c = true →
          st'.cache.get c = some CrateStatus.full := by
  intro names
  induction names with
  | nil =>
    intro st st' h x hx1 hx2
    injection h with h
    subst h
    exact absurd hx2 hx1
  | cons b rest ihl =>
    intro st st' h x hx1 hx2 c hc hcc
    simp only [loadList] at h
    by_cases hb : env.crates.contains b
    · rw [if_pos hb] at h
      cases hfb : loadDependencyF env fuel st b with
      | none => rw [hfb] at h; cases h
      | some stm =>
        rw [hfb] at h
        by_cases hm : stm.cache.get x = some CrateStatus.full
        · have hneed := ihneed st b stm hfb x hx1 hm c hc hcc
          apply full_of_rank_two
          have hmono := loadList_rank_mono env _ (loadF_rank_mono env fuel)
            rest stm st' h c
          rw [hneed] at hmono
          exact hmono
        · exact ihl stm st' h x hm hx2 c hc hcc
    · rw [if_neg hb] at h
      exact ihl st st' h x hx1 hx2 c hc hcc

/-- Inside one `loadDependency` run, whenever a crate transitions to
`full`, all its permitted requirements are `full` at the end of the
run. -/
theorem loadF_needed_full (env : Env) :
    ∀ (fuel : Nat) (st : LoaderState) (name : String) (st' : LoaderState),
      loadDependencyF env fuel st name = some st' →
      ∀ x, st.cache.get x ≠ some CrateStatus.full →
        st'.cache.get x = some CrateStatus.full →
        ∀ c ∈ env.needed x, env.crates.contains c = true →
          st'.cache.get c = some CrateStatus.full := by
  intro fuel
  induction fuel with
  | zero => intro st name st' h; cases h
  | succ fuel ih =>
    intro st name st' h x hx1 hx2 c hc hcc
    rw [loadDependencyF_succ] at h
    by_cases hfull : st.cache.get name = some CrateStatus.full
    · rw [if_pos hfull] at h
      injection h with h
      subst h
      exact absurd hx2 hx1
    · rw [if_neg hfull] at h
      by_cases hx : x = name
      · subst hx
        exact loadList_full_each env _ (loadF_full_after env fuel)
          (loadF_rank_mono env fuel) _ _ _ h c hc hcc
      · have hmidx : ((st.cache.set name CrateStatus.full)).get x ≠
            some CrateStatus.full := by
          rw [Cache.get_set_ne _ _ _ _ hx]
          exact hx1
        exact loadList_needed_full env fuel ih _ _ _ h x hmidx hx2 c hc hcc

/-- One loop iteration: a crate newly `full` has its permitted
requirements `full`. -/
theorem crateStep_needed_full (env : Env) (text : String) (st : LoaderState)
    (b x : String) (hx1 : st.cache.get x ≠ some CrateStatus.full)
    (hx2 : (crateStep env text st b).cache.get x = some CrateStatus.full) :
    ∀ c ∈ env.needed x, env.crates.contains c = true →
      (crateStep env text st b).cache.get c = some CrateStatus.full := by
  intro c hc hcc
  by_cases hf : st.cache.get b = some CrateStatus.full
  · rw [crateStep_of_full env text st b hf] at hx2
    exact absurd hx2 hx1
  · rw [crateStep_of_not_full env text st b hf] at hx2 ⊢
    by_cases hu : usesCrate b text
    · rw [if_pos hu] at hx2 ⊢
      exact loadF_needed_full env _ st b _ (loadDependency_spec env st b)
        x hx1 hx2 c hc hcc
    · rw [if_neg hu] at hx2
      exact absurd hx2 (markSeen_get_not_full st b x hx1)

/-- Across the whole loop: a crate newly `full` has its permitted
requirements `full` at the end. -/
theorem updateLoop_needed_full (env : Env) (text : String) :
    ∀ (cs : List String) (st : LoaderState) (x : String),
      st.cache.get x ≠ some CrateStatus.full →
      (updateLoop env text cs st).cache.get x = some CrateStatus.full →
      ∀ c ∈ env.needed x, env.crates.contains c = true →
        (updateLoop env text cs st).cache.get c = some CrateStatus.full := by
  intro cs
  induction cs with
  | nil =>
    intro st x hx1 hx2
    exact absurd hx2 hx1
  | cons b rest ih =>
    intro st x hx1 hx2 c hc hcc
    show (updateLoop env text rest (crateStep env text st b)).cache.get c = _
    by_cases hm : (crateStep env text st b).cache.get x = some CrateStatus.full
    · have hneed := crateStep_needed_full env text st b x hx1 hm c hc hcc
      exact updateLoop_keeps_full env text rest _ c hneed
    · exact ih _ x hm hx2 c hc hcc

/-- C5. Running `update` on text containing `foo::…` for a permitted
crate `foo` not yet fully loaded: `foo` ends cached `Full`; exactly one
full ingestion (fetch of source and manifest plus
`state.loadDependency(foo, code, manifest)`) is issued for `foo` across
the whole update; and every requirement the engine returns for `foo` that
is itself permitted ends cached `Full` (loaded by the recursive
`loadDependency` calls). -/
theorem update_usage_loads_once (env : Env) (st : LoaderState)
    (path text foo : String)
    (hmem : foo ∈ env.crates) (hgood : GoodSt st)
    (hnotfull : st.cache.get foo ≠ some CrateStatus.full)
    (huse : usesCrate foo text = true) :
    (update env st path text).cache.get foo = some CrateStatus.full ∧
    fullLoadCount (update env st path text).log foo =
      fullLoadCount st.log foo + 1 ∧
    ∀ c ∈ env.needed foo, c ∈ env.crates →
      (update env st path text).cache.get c = some CrateStatus.full := by
  have hfull : (update env st path text).cache.get foo =
      some CrateStatus.full := by
    rw [update_cache_eq]
    exact updateLoop_member_full env text foo huse env.crates st hmem
  refine ⟨hfull, ?_, ?_⟩
  · have h1 := update_goodSt env st path text hgood foo
    have h0 := hgood foo
    rw [if_neg hnotfull] at h0
    have h1' : fullLoadCount (update env st path text).log foo = 1 := by
      rw [h1, if_pos hfull]
    rw [h1', h0]
  · intro c hc hcc
    have hfull' := hfull
    rw [update_cache_eq] at hfull'
    rw [update_cache_eq]
    exact updateLoop_needed_full env text env.crates st foo hnotfull hfull'
      c hc (List.elem_iff.mpr hcc)

/-- C5 witness: on the cyclic two-crate graph, updating with text
`"a::x"` from a fresh cache fully ingests `a` exactly once (and `b`, its
requirement, ends `Full`). -/
theorem update_usage_loads_once_w :
    (update cycleEnv ⟨[], []⟩ "/p" "a::x").cache.get "a" =
      some CrateStatus.full ∧
    fullLoadCount (update cycleEnv ⟨[], []⟩ "/p" "a::x").log "a" =
      fullLoadCount ([] : List LoadEvent) "a" + 1 ∧
    ∀ c ∈ cycleEnv.needed "a", c ∈ cycleEnv.crates →
      (update cycleEnv ⟨[], []⟩ "/p" "a::x").cache.get c =
        some CrateStatus.full :=
  update_usage_loads_once cycleEnv ⟨[], []⟩ "/p" "a::x" "a"
    (by decide) (fun name => rfl) (by decide) (by decide)

end RAClient
